import Mathlib

/-!
# Verification of the go-keys PCM sine-wave streamer

Shallow embedding of the algorithmic core of the `keys` Go package
(`SineWave`, `NewSineWave`, `(*SineWave).Read`, and the format switch of
`InitAudioContext`).

Modelling conventions:

* Go `int64` / `int` values (`length`, `pos`, the sample-rate and duration
  arguments) are Lean `Int`s.  Where the source can genuinely overflow —
  the product `int64(channelCount)*int64(formatByteLength(format))*
  int64(*sampleRate)*int64(duration)` in `NewSineWave` — each binary
  multiplication is wrapped to two's-complement 64-bit range with `wrap64`.
  Inside `Read` the arithmetic on `pos`/`length`/buffer lengths is modelled
  exactly: in every reachable state `0 ≤ pos ≤ length < 2^63` and buffer
  lengths are machine-bounded, so no wrap can occur there.
* Go byte slices are `List Nat` (each element a byte value).  `copy` and
  re-slicing become `List.take` / `List.drop`.  Go `make` zero-fills, hence
  `List.replicate _ 0` for the scratch buffer.
* Go integer division on `int64` truncates toward zero, hence `Int.tdiv`.
* The floating-point sample pipeline
  `math.Sin(2*math.Pi*float64(p)/length) * 0.3` followed by the per-format
  quantisation is transcendental and is abstracted as a parameter
  `sb : Int → List Nat` giving the encoded bytes of the sample at absolute
  frame position `p` (`(sb p).length = formatByteLength format`, which every
  branch of the source's encode switch guarantees: it writes exactly
  `formatByteLength` bytes per channel slot).  The only concretely needed
  value is at `p = 0`: `math.Sin(0) = 0` exactly in IEEE 754, so the frame-0
  sample encodes to `zeroSampleBytes` below.
* The `freq` field of the Go struct only feeds the sine argument and is
  therefore folded into `sb`; it does not appear in the Lean state.
* `Read`'s generation loops bound the channel index by the global flag
  `*channelCount`; on every call path of the program (`main` →
  `InitAudioContext` → `Run` → `play` → `NewSineWave`) that flag equals the
  stream's own `channelCount` field, so the embedding uses the field.
-/

namespace Keys

/-- The three `oto.Format` values the source handles
(`oto.FormatFloat32LE`, `oto.FormatUnsignedInt8`, `oto.FormatSignedInt16LE`).
The `default: panic` branch of `formatByteLength` is unreachable for this
inductive, which has exactly the three handled constructors. -/
inductive Format where
  | float32LE
  | unsignedInt8
  | signedInt16LE
deriving DecidableEq, Repr

/-- `formatByteLength` (src/unnamed/part_000 lines 33-44): bytes per sample
for one channel. -/
def formatByteLength : Format → Nat
  | .float32LE => 4
  | .unsignedInt8 => 1
  | .signedInt16LE => 2

/-- The `SineWave` struct (lines 22-31).  `freq` is omitted: it only enters
through the abstracted sample-byte function. -/
structure SineWave where
  length : Int
  pos : Int
  channelCount : Nat
  format : Format
  remaining : List Nat
deriving DecidableEq, Repr

/-- Two's-complement wrap to the `int64` range, Go's defined behaviour for
signed overflow. -/
def wrap64 (x : Int) : Int := (x + 2 ^ 63) % 2 ^ 64 - 2 ^ 63

/-- `NewSineWave` (lines 46-55).  The length formula
`int64(channelCount) * int64(formatByteLength(format)) * int64(*sampleRate)
 * int64(duration) / int64(time.Second)` associates to the left with each
intermediate `int64` product wrapping; `/` is Go (truncating) division and
`time.Second = 1e9` nanoseconds.  Then `l = l / 4 * 4`. -/
def NewSineWave (sampleRate durationNs : Int) (channelCount : Nat)
    (format : Format) : SineWave :=
  let l0 := wrap64 (wrap64 (wrap64 ((channelCount : Int) * (formatByteLength format : Int))
      * sampleRate) * durationNs)
  let l1 := l0.tdiv 1000000000
  let l := l1.tdiv 4 * 4
  { length := l, pos := 0, channelCount := channelCount,
    format := format, remaining := [] }

/-- One frame's bytes: the encode switch (lines 85-116) computes the sample
bytes once per frame index and writes the identical bytes into each of the
`channelCount` consecutive channel slots
(`buf[num*i + bytesPerSample*ch + j]` for `ch < channelCount`,
`j < bytesPerSample`, which tile the frame `[num*i, num*(i+1))`). -/
def frameBytes : Nat → List Nat → List Nat
  | 0, _ => []
  | ch + 1, bs => bs ++ frameBytes ch bs

/-- The generation loop (lines 85-116): frames for loop indices
`i = 0, …, n-1` at absolute frame positions `p, p+1, …` (`p++` per
iteration), laid out consecutively. -/
def genFrames (sb : Int → List Nat) (c : Nat) (p : Int) : Nat → List Nat
  | 0 => []
  | n + 1 => frameBytes c (sb p) ++ genFrames sb c (p + 1) n

/-- `(*SineWave).Read` (lines 57-130), as a pure step function.
Returns `(delivered bytes, end-of-stream flag, new state)`; the Go
return `(n, io.EOF)` is flag `true`, `(n, nil)` is `false`, and the
delivered bytes are `buf[:n]` after the call.

* lines 58-63: serve the carry-over `remaining` first;
* lines 65-67: exhausted stream;
* lines 69-73: truncate the working slice at `length` and record `eof`
  (only when `pos + len(buf) > length`, strictly);
* lines 75-79: if the working length is not a multiple of 4, switch to a
  fresh zero-filled scratch buffer rounded up to a multiple of 4
  (`make` zero-fills);
* lines 81-116: generate `len(buf)/num` whole frames from frame position
  `p = pos / num` into the working buffer, positions past the last whole
  frame keeping the buffer's prior content;
* line 118: `pos += len(buf)` (the *working* buffer's length);
* lines 120-124: with a scratch buffer, copy the caller's capacity worth
  of bytes back and stash the overflow in `remaining`;
* lines 126-129: return with the recorded `eof` flag.

In Go, states with `pos > length` (never reached from `NewSineWave` with a
nonnegative `length`) would panic at the re-slice on line 71; the embedding
instead clamps via `Int.toNat`. -/
def Read (sb : Int → List Nat) (s : SineWave) (buf : List Nat) :
    List Nat × Bool × SineWave :=
  if 0 < s.remaining.length then
    let n := min buf.length s.remaining.length
    (s.remaining.take n, false, { s with remaining := s.remaining.drop n })
  else if s.pos = s.length then
    ([], true, s)
  else
    let eof := s.length < s.pos + (buf.length : Int)
    let buf1 := if eof then buf.take (s.length - s.pos).toNat else buf
    let scratch := 0 < buf1.length % 4
    let w := if scratch then
        (List.replicate (buf1.length + (4 - buf1.length % 4)) 0 : List Nat)
      else buf1
    let num := formatByteLength s.format * s.channelCount
    let p := s.pos.tdiv (num : Int)
    let nf := w.length / num
    let gen := genFrames sb s.channelCount p nf ++ w.drop (num * nf)
    let s1 : SineWave := { s with pos := s.pos + (w.length : Int) }
    if scratch then
      (gen.take buf1.length, eof, { s1 with remaining := gen.drop buf1.length })
    else
      (gen, eof, s1)

/-- Fold a sequence of `Read` calls: the list of `(delivered, eof)` results
together with the final state. -/
def runReads (sb : Int → List Nat) (s : SineWave) :
    List (List Nat) → List (List Nat × Bool) × SineWave
  | [] => ([], s)
  | b :: bs =>
    let r := Read sb s b
    let rest := runReads sb r.2.2 bs
    ((r.1, r.2.1) :: rest.1, rest.2)

/-- Concatenation of the bytes delivered by a sequence of `Read` calls. -/
def runOut (sb : Int → List Nat) (s : SineWave) (bufs : List (List Nat)) :
    List Nat :=
  (((runReads sb s bufs).1).map Prod.fst).flatten

/-- The format switch of `InitAudioContext` (lines 138-152): the part of the
function that runs before any call into the audio library
(`oto.NewContext`, lines 154-159, is external library glue executed only
after a successful match).  `Except.error` is the early
`return nil, nil, fmt.Errorf(...)`. -/
def InitAudioContext (format : String) : Except String Format :=
  if format = "f32le" then .ok .float32LE
  else if format = "u8" then .ok .unsignedInt8
  else if format = "s16le" then .ok .signedInt16LE
  else .error ("format must be u8, s16le, or f32le but: " ++ format)

/-- Encoded bytes of the sample at frame position 0.  There
`math.Sin(2*math.Pi*0/length) = math.Sin(0) = 0` exactly in IEEE 754, so:
float32 bit pattern of `0.0` is `0` (four zero bytes, little-endian);
`int(0*0.3*127) + 128 = 128`; `int16(0*0.3*32767) = 0` (two zero bytes). -/
def zeroSampleBytes : Format → List Nat
  | .float32LE => [0, 0, 0, 0]
  | .unsignedInt8 => [128]
  | .signedInt16LE => [0, 0]

/-- The state invariant maintained by `Read` from any `NewSineWave` state
with nonnegative length: the cursor is a multiple of 4 within
`[0, length]`, the total length is a multiple of 4, and the carry-over
buffer holds at most 3 bytes. -/
def GoodState (s : SineWave) : Prop :=
  0 ≤ s.pos ∧ s.pos ≤ s.length ∧ s.pos % 4 = 0 ∧ s.length % 4 = 0 ∧
    s.remaining.length ≤ 3

instance (s : SineWave) : Decidable (GoodState s) := by
  unfold GoodState
  infer_instance

/-- Simulation invariant for chunking invariance: after delivering the
first `k` bytes of the ideal output `genFrames sb c 0 m`, the stream's
cursor sits `r` carried-over bytes ahead of `k`, the carry-over holds
exactly bytes `k … k+r` of the ideal output, and the cursor is 4-aligned
and within bounds. -/
def ChunkInv (sb : Int → List Nat) (c : Nat) (fmt : Format) (m : Nat)
    (s : SineWave) (k : Nat) : Prop :=
  s.channelCount = c ∧ s.format = fmt ∧
  s.length = ((m * (formatByteLength fmt * c) : Nat) : Int) ∧
  ∃ r : Nat,
    s.pos = ((k + r : Nat) : Int) ∧
    s.remaining = ((genFrames sb c 0 m).drop k).take r ∧
    (k + r) % 4 = 0 ∧
    k + r ≤ m * (formatByteLength fmt * c)

/-! ## Basic lemmas about the generation helpers -/

theorem frameBytes_length (c : Nat) (bs : List Nat) :
    (frameBytes c bs).length = c * bs.length := by
  induction c with
  | zero => simp [frameBytes]
  | succ c ih => simp [frameBytes, ih]; ring

theorem genFrames_length (sb : Int → List Nat) (c : Nat) (L : Nat)
    (hsb : ∀ q, (sb q).length = L) (p : Int) (n : Nat) :
    (genFrames sb c p n).length = n * (c * L) := by
  induction n generalizing p with
  | zero => simp [genFrames]
  | succ n ih =>
    simp [genFrames, frameBytes_length, hsb, ih]; ring

theorem genFrames_add (sb : Int → List Nat) (c : Nat) (p : Int) (a b : Nat) :
    genFrames sb c p (a + b) = genFrames sb c p a ++ genFrames sb c (p + a) b := by
  induction a generalizing p with
  | zero => simp [genFrames]
  | succ a ih =>
    have h1 : a + 1 + b = (a + b) + 1 := by ring
    have h2 : p + 1 + (a : Int) = p + (((a + 1 : Nat) : Int)) := by push_cast; ring
    rw [h1]
    simp only [genFrames, ih (p + 1), List.append_assoc, h2]

theorem genFrames_extract (sb : Int → List Nat) (c : Nat) (L : Nat)
    (hsb : ∀ q, (sb q).length = L) (p : Int) (i j n : Nat) (h : i + j ≤ n) :
    ((genFrames sb c p n).drop (i * (c * L))).take (j * (c * L)) =
      genFrames sb c (p + i) j := by
  obtain ⟨r, hr⟩ : ∃ r, n = i + (j + r) := ⟨n - (i + j), by omega⟩
  subst hr
  rw [genFrames_add sb c p i (j + r), genFrames_add sb c (p + i) j r]
  have h1 : (genFrames sb c p i).length = i * (c * L) := genFrames_length sb c L hsb p i
  have h2 : (genFrames sb c (p + i) j).length = j * (c * L) :=
    genFrames_length sb c L hsb (p + i) j
  rw [← h1, List.drop_left, ← h2, List.take_left]

theorem frameBytes_slot (c : Nat) (bs : List Nat) (L : Nat) (hbs : bs.length = L)
    (ch : Nat) (hch : ch < c) :
    ((frameBytes c bs).drop (L * ch)).take L = bs := by
  induction c generalizing ch with
  | zero => omega
  | succ c ih =>
    cases ch with
    | zero =>
      simp only [frameBytes, Nat.mul_zero, List.drop_zero]
      rw [← hbs, List.take_left]
    | succ ch =>
      have hL : L * (ch + 1) = bs.length + L * ch := by rw [hbs]; ring
      simp only [frameBytes, hL]
      rw [List.drop_append, ih ch (by omega)]

theorem genFrames_slot (sb : Int → List Nat) (c : Nat) (L : Nat)
    (hsb : ∀ q, (sb q).length = L) (p : Int) (n i ch : Nat)
    (hi : i < n) (hch : ch < c) :
    ((genFrames sb c p n).drop ((c * L) * i + L * ch)).take L = sb (p + i) := by
  have hsplit : genFrames sb c p n =
      genFrames sb c p i ++ genFrames sb c (p + i) (n - i) := by
    rw [← genFrames_add]
    congr 1
    omega
  obtain ⟨r, hr⟩ : ∃ r, n - i = r + 1 := ⟨n - i - 1, by omega⟩
  rw [hsplit, hr]
  have h1 : (genFrames sb c p i).length = i * (c * L) := genFrames_length sb c L hsb p i
  have heq : (c * L) * i + L * ch = (genFrames sb c p i).length + L * ch := by
    rw [h1]; ring
  rw [heq, List.drop_append]
  simp only [genFrames]
  have hdrop : (frameBytes c (sb (p + i)) ++ genFrames sb c (p + i + 1) r).drop (L * ch) =
      (frameBytes c (sb (p + i))).drop (L * ch) ++ genFrames sb c (p + i + 1) r := by
    refine List.drop_append_of_le_length ?_
    rw [frameBytes_length, hsb]
    calc L * ch ≤ L * c := Nat.mul_le_mul_left L (le_of_lt hch)
    _ = c * L := Nat.mul_comm L c
  rw [hdrop]
  have hlen2 : ((frameBytes c (sb (p + i))).drop (L * ch)).length = c * L - L * ch := by
    rw [List.length_drop, frameBytes_length, hsb]
  have hge : L ≤ ((frameBytes c (sb (p + i))).drop (L * ch)).length := by
    rw [hlen2]
    have hmul : L * ch + L ≤ c * L := by
      calc L * ch + L = L * (ch + 1) := by ring
      _ ≤ L * c := Nat.mul_le_mul_left L hch
      _ = c * L := by ring
    omega
  rw [List.take_append_of_le_length hge, frameBytes_slot c _ L (hsb _) ch hch]

theorem wrap64_eq_self (x : Int) (h1 : -(2 ^ 63) ≤ x) (h2 : x < 2 ^ 63) :
    wrap64 x = x := by
  unfold wrap64
  rw [Int.emod_eq_of_lt (by omega) (by omega)]
  ring

theorem NewSineWave_length_mod4 (sr d : Int) (c : Nat) (fmt : Format) :
    (NewSineWave sr d c fmt).length % 4 = 0 := by
  simp only [NewSineWave]
  omega

theorem NewSineWave_simp (sr d : Int) (c : Nat) (fmt : Format) :
    (NewSineWave sr d c fmt).pos = 0 ∧ (NewSineWave sr d c fmt).remaining = [] ∧
    (NewSineWave sr d c fmt).channelCount = c ∧ (NewSineWave sr d c fmt).format = fmt := by
  refine ⟨rfl, rfl, rfl, rfl⟩

/-- Characterisation of a `Read` call that reaches the generation branch
(lines 69-129), for a stream whose frame size `num` divides 4, at byte
position `k` of a total of `m` frames.  Writing `S` for the full ideal output
`genFrames sb c 0 m`, the call delivers `(S.drop k).take w0` where
`w0 = min buf.length (m*num - k)`, signals end-of-stream iff the buffer
strictly overshoots, advances `pos` by `w0` rounded up to a multiple of 4,
and carries the rounding overflow (bytes `k+w0 … k+wl` of `S`) in
`remaining`. -/
theorem Read_gen (sb : Int → List Nat) (s : SineWave) (buf : List Nat)
    (m k num w0 wl : Nat)
    (hnum : num = formatByteLength s.format * s.channelCount)
    (hsb : ∀ q, (sb q).length = formatByteLength s.format)
    (hdvd : num ∣ 4)
    (hrem : s.remaining = [])
    (hpos : s.pos = (k : Int))
    (hlen : s.length = ((m * num : Nat) : Int))
    (hk4 : k % 4 = 0)
    (hm4 : (m * num) % 4 = 0)
    (hklt : k < m * num)
    (hw0 : w0 = min buf.length (m * num - k))
    (hwl : wl = w0 + (4 - w0 % 4) % 4) :
    Read sb s buf =
      (((genFrames sb s.channelCount 0 m).drop k).take w0,
       decide (m * num < k + buf.length),
       { s with pos := ((k + wl : Nat) : Int),
                remaining := (((genFrames sb s.channelCount 0 m).drop k).take wl).drop w0 }) := by
  obtain ⟨slen, spos, c, fmt, rem⟩ := s
  simp only at hnum hsb hrem hpos hlen ⊢
  subst hrem hpos hlen hnum hw0 hwl
  have hnum0 : 0 < formatByteLength fmt * c := by
    rcases Nat.eq_zero_or_pos (formatByteLength fmt * c) with h | h
    · rw [h] at hdvd
      exact absurd (Nat.eq_zero_of_zero_dvd hdvd) (by omega)
    · exact h
  set num := formatByteLength fmt * c with hnumdef
  set L := formatByteLength fmt with hLdef
  set w0 := min buf.length (m * num - k) with hw0def
  set wl := w0 + (4 - w0 % 4) % 4 with hwldef
  have hnumk : num ∣ k := dvd_trans hdvd (Nat.dvd_of_mod_eq_zero hk4)
  have hnumm : num ∣ m * num := dvd_mul_left num m
  rw [Read]
  rw [if_neg (by simp)]
  rw [if_neg (show ¬((k : Int) = ((m * num : Nat) : Int)) by
    exact_mod_cast (by omega : ¬ k = m * num))]
  simp only []
  have hcL : c * L = num := by rw [hnumdef]; ring
  have hdivle : ∀ i j : Nat, num ∣ i → num ∣ j → k + i ≤ m * num →
      k / num + i / num ≤ m := by
    intro i j hi _ hki
    by_contra hcon
    push_neg at hcon
    have hcon' : m + 1 ≤ k / num + i / num := by omega
    have hmul : (m + 1) * num ≤ (k / num + i / num) * num :=
      Nat.mul_le_mul_right num hcon'
    rw [Nat.add_mul, Nat.add_mul, Nat.div_mul_cancel hnumk,
      Nat.div_mul_cancel hi] at hmul
    omega
  have hextract : ∀ v : Nat, num ∣ v → k + v ≤ m * num →
      genFrames sb c ((k : Int).tdiv (num : Int)) (v / num) =
        ((genFrames sb c 0 m).drop k).take v := by
    intro v hv hkv
    have hij : k / num + v / num ≤ m := hdivle v v hv hv hkv
    have he := genFrames_extract sb c L hsb 0 (k / num) (v / num) m hij
    rw [hcL, Nat.div_mul_cancel hnumk, Nat.div_mul_cancel hv, zero_add] at he
    rw [← Int.ofNat_tdiv]
    exact he.symm
  by_cases heof : m * num < k + buf.length
  · -- the buffer strictly overshoots: truncation and end-of-stream
    have heofI : ((m * num : Nat) : Int) < (k : Int) + (buf.length : Int) := by
      exact_mod_cast heof
    have htoNat : (((m * num : Nat) : Int) - (k : Int)).toNat = m * num - k := by omega
    have hlenb : m * num - k ≤ buf.length := by omega
    have hb1len : (List.take (m * num - k) buf).length = m * num - k := by
      rw [List.length_take]; omega
    have hw0eq : w0 = m * num - k := by rw [hw0def]; exact min_eq_right hlenb
    have hw04 : w0 % 4 = 0 := by rw [hw0eq]; omega
    have hwlw0 : wl = w0 := by rw [hwldef]; omega
    have hnumw0 : num ∣ m * num - k := Nat.dvd_sub' hnumm hnumk
    have hscr : ¬ (0 < (m * num - k) % 4) := by omega
    rw [if_pos heofI, htoNat, hb1len]
    rw [if_neg hscr, if_neg hscr, hb1len]
    rw [Nat.mul_div_cancel' hnumw0]
    rw [List.drop_eq_nil_of_le (le_of_eq hb1len), List.append_nil]
    rw [hextract (m * num - k) hnumw0 (by omega)]
    simp only [Prod.mk.injEq, SineWave.mk.injEq]
    refine ⟨by rw [hw0eq], ?_, trivial, ?_, trivial, trivial, ?_⟩
    · simp only [decide_eq_decide]
      push_cast
      omega
    · rw [hwlw0, hw0eq]; push_cast; ring
    · rw [hwlw0]
      exact (List.drop_eq_nil_of_le (List.length_take_le _ _)).symm
  · -- no overshoot: the whole caller buffer is the working length
    have heofC : ¬ (((m * num : Nat) : Int) < (k : Int) + (buf.length : Int)) := by
      intro h
      exact heof (by exact_mod_cast h)
    have hble : buf.length ≤ m * num - k := by omega
    have hw0eq : w0 = buf.length := by rw [hw0def]; exact min_eq_left hble
    rw [if_neg heofC]
    by_cases hb4 : 0 < buf.length % 4
    · -- scratch buffer: round the working length up to a multiple of 4
      have hwlen : (List.replicate (buf.length + (4 - buf.length % 4)) (0 : Nat)).length
          = buf.length + (4 - buf.length % 4) := List.length_replicate _ _
      have hwleq : wl = buf.length + (4 - buf.length % 4) := by
        rw [hwldef, hw0eq]; omega
      have hnumwl : num ∣ buf.length + (4 - buf.length % 4) := by
        refine dvd_trans hdvd (Nat.dvd_of_mod_eq_zero ?_)
        omega
      have hkwl : k + (buf.length + (4 - buf.length % 4)) ≤ m * num := by omega
      rw [if_pos hb4, if_pos hb4, hwlen]
      rw [Nat.mul_div_cancel' hnumwl]
      rw [List.drop_eq_nil_of_le (le_of_eq hwlen), List.append_nil]
      rw [hextract _ hnumwl hkwl]
      simp only [Prod.mk.injEq, SineWave.mk.injEq]
      refine ⟨?_, ?_, trivial, ?_, trivial, trivial, ?_⟩
      · rw [List.take_take,
          min_eq_left (by omega : buf.length ≤ buf.length + (4 - buf.length % 4)),
          hw0eq]
      · simp only [decide_eq_decide]
        push_cast
        omega
      · rw [hwleq]; push_cast; ring
      · rw [hwleq, hw0eq]
    · -- the caller buffer length is already a multiple of 4
      have hw04 : w0 % 4 = 0 := by omega
      have hwlw0 : wl = w0 := by rw [hwldef]; omega
      have hnumw0 : num ∣ buf.length := by
        refine dvd_trans hdvd (Nat.dvd_of_mod_eq_zero ?_)
        omega
      rw [if_neg hb4, if_neg hb4]
      rw [Nat.mul_div_cancel' hnumw0]
      rw [List.drop_eq_nil_of_le (le_refl buf.length), List.append_nil]
      rw [hextract buf.length hnumw0 (by omega)]
      simp only [Prod.mk.injEq, SineWave.mk.injEq]
      refine ⟨by rw [hw0eq], ?_, trivial, ?_, trivial, trivial, ?_⟩
      · simp only [decide_eq_decide]
        push_cast
        omega
      · rw [hwlw0, hw0eq]; push_cast; ring
      · rw [hwlw0]
        exact (List.drop_eq_nil_of_le (List.length_take_le _ _)).symm

/-- A `Read` on a non-exhausted stream with empty carry-over buffer, with no
assumption on the frame size: there is a generated buffer
`gen = generated frames ++ untouched tail` of length `wl` (the working
length `w0` rounded up to a multiple of 4) from which the first `w0` bytes
are delivered and the rest becomes the carry-over. -/
theorem Read_branch3 (sb : Int → List Nat) (s : SineWave) (buf : List Nat)
    (k LN num w0 wl : Nat)
    (hnum : num = formatByteLength s.format * s.channelCount)
    (hsb : ∀ q, (sb q).length = formatByteLength s.format)
    (hrem : s.remaining = [])
    (hpos : s.pos = (k : Int))
    (hlen : s.length = (LN : Int))
    (hk4 : k % 4 = 0)
    (hl4 : LN % 4 = 0)
    (hklt : k < LN)
    (hw0 : w0 = min buf.length (LN - k))
    (hwl : wl = w0 + (4 - w0 % 4) % 4) :
    ∃ rest : List Nat,
      rest.length = wl - num * (wl / num) ∧
      Read sb s buf =
        ((genFrames sb s.channelCount ((k / num : Nat) : Int) (wl / num) ++ rest).take w0,
         decide (LN < k + buf.length),
         { s with pos := ((k + wl : Nat) : Int),
                  remaining :=
                    (genFrames sb s.channelCount ((k / num : Nat) : Int) (wl / num)
                      ++ rest).drop w0 }) := by
  obtain ⟨slen, spos, c, fmt, rem⟩ := s
  simp only at hnum hsb hrem hpos hlen ⊢
  subst hrem hpos hlen hnum hw0 hwl
  set w0 := min buf.length (LN - k) with hw0def
  set wl := w0 + (4 - w0 % 4) % 4 with hwldef
  have hgenlen : ∀ (p : Int) (n : Nat),
      (genFrames sb c p n).length = n * (formatByteLength fmt * c) := by
    intro p n
    rw [genFrames_length sb c (formatByteLength fmt) hsb p n]
    ring
  rw [Read]
  rw [if_neg (by simp)]
  rw [if_neg (show ¬((k : Int) = (LN : Int)) by
    exact_mod_cast (by omega : ¬ k = LN))]
  simp only []
  by_cases heof : LN < k + buf.length
  · -- overshoot: working slice truncated to stream end, a multiple of 4
    have heofI : ((LN : Nat) : Int) < (k : Int) + (buf.length : Int) := by
      exact_mod_cast heof
    have htoNat : (((LN : Nat) : Int) - (k : Int)).toNat = LN - k := by omega
    have hlenb : LN - k ≤ buf.length := by omega
    have hb1len : (List.take (LN - k) buf).length = LN - k := by
      rw [List.length_take]; omega
    have hw0eq : w0 = LN - k := by rw [hw0def]; exact min_eq_right hlenb
    have hw04 : w0 % 4 = 0 := by rw [hw0eq]; omega
    have hwlw0 : wl = w0 := by rw [hwldef]; omega
    have hscr : ¬ (0 < (LN - k) % 4) := by omega
    refine ⟨List.drop ((formatByteLength fmt * c) * ((LN - k) / (formatByteLength fmt * c)))
      (List.take (LN - k) buf), ?_, ?_⟩
    · rw [List.length_drop, hb1len, hwlw0, hw0eq]
    rw [hwlw0, hw0eq]
    rw [if_pos heofI, htoNat, hb1len]
    rw [if_neg hscr, if_neg hscr, hb1len]
    rw [← Int.ofNat_tdiv]
    have hlen1 : (genFrames sb c ((k / (formatByteLength fmt * c) : Nat) : Int)
        ((LN - k) / (formatByteLength fmt * c)) ++
        List.drop ((formatByteLength fmt * c) * ((LN - k) / (formatByteLength fmt * c)))
          (List.take (LN - k) buf)).length = LN - k := by
      rw [List.length_append, hgenlen, List.length_drop, hb1len]
      have h1 := Nat.div_mul_le_self (LN - k) (formatByteLength fmt * c)
      have h2 : (LN - k) / (formatByteLength fmt * c) * (formatByteLength fmt * c)
          = (formatByteLength fmt * c) * ((LN - k) / (formatByteLength fmt * c)) :=
        Nat.mul_comm _ _
      omega
    simp only [Prod.mk.injEq, SineWave.mk.injEq]
    refine ⟨(List.take_of_length_le (le_of_eq hlen1)).symm, ?_, trivial,
      by push_cast; ring, trivial, trivial,
      (List.drop_eq_nil_of_le (le_of_eq hlen1)).symm⟩
    simp only [decide_eq_decide]
    omega
  · -- no overshoot: the whole caller buffer is the working length
    have heofC : ¬ (((LN : Nat) : Int) < (k : Int) + (buf.length : Int)) := by
      intro h
      exact heof (by exact_mod_cast h)
    have hble : buf.length ≤ LN - k := by omega
    have hw0eq : w0 = buf.length := by rw [hw0def]; exact min_eq_left hble
    rw [if_neg heofC]
    by_cases hb4 : 0 < buf.length % 4
    · -- scratch buffer, zero-filled, working length rounded up to a multiple of 4
      have hwlen : (List.replicate (buf.length + (4 - buf.length % 4)) (0 : Nat)).length
          = buf.length + (4 - buf.length % 4) := List.length_replicate _ _
      have hwleq : wl = buf.length + (4 - buf.length % 4) := by
        rw [hwldef, hw0eq]; omega
      refine ⟨List.drop ((formatByteLength fmt * c) * (wl / (formatByteLength fmt * c)))
        (List.replicate wl (0 : Nat)), ?_, ?_⟩
      · rw [List.length_drop, List.length_replicate]
      rw [if_pos hb4, if_pos hb4, hwlen, ← hwleq]
      rw [← Int.ofNat_tdiv, hw0eq]
      simp only [Prod.mk.injEq, SineWave.mk.injEq]
      refine ⟨trivial, ?_, trivial, by push_cast; ring, trivial, trivial, trivial⟩
      simp only [decide_eq_decide]
      omega
    · -- the caller buffer length is already a multiple of 4
      have hw04 : w0 % 4 = 0 := by omega
      have hwlw0 : wl = w0 := by rw [hwldef]; omega
      refine ⟨List.drop ((formatByteLength fmt * c) * (wl / (formatByteLength fmt * c))) buf,
        ?_, ?_⟩
      · rw [List.length_drop, hwlw0, hw0eq]
      rw [hwlw0, hw0eq]
      rw [if_neg hb4, if_neg hb4]
      rw [← Int.ofNat_tdiv]
      have hlen1 : (genFrames sb c ((k / (formatByteLength fmt * c) : Nat) : Int)
          (buf.length / (formatByteLength fmt * c)) ++
          List.drop ((formatByteLength fmt * c) * (buf.length / (formatByteLength fmt * c)))
            buf).length = buf.length := by
        rw [List.length_append, hgenlen, List.length_drop]
        have h1 := Nat.div_mul_le_self buf.length (formatByteLength fmt * c)
        have h2 : buf.length / (formatByteLength fmt * c) * (formatByteLength fmt * c)
            = (formatByteLength fmt * c) * (buf.length / (formatByteLength fmt * c)) :=
          Nat.mul_comm _ _
        omega
      simp only [Prod.mk.injEq, SineWave.mk.injEq]
      refine ⟨(List.take_of_length_le (le_of_eq hlen1)).symm, ?_, trivial,
        by push_cast; ring, trivial, trivial,
        (List.drop_eq_nil_of_le (le_of_eq hlen1)).symm⟩
      simp only [decide_eq_decide]
      omega

/-- A `Read` on an exhausted stream with empty carry-over: `(0, io.EOF)`,
state untouched (lines 65-67). -/
theorem Read_exhausted (sb : Int → List Nat) (s : SineWave) (buf : List Nat)
    (h1 : s.remaining = []) (h2 : s.pos = s.length) :
    Read sb s buf = ([], true, s) := by
  rw [Read, if_neg (by simp [h1]), if_pos h2]

/-- A `Read` on a stream with pending carry-over bytes serves them first and
only them, with no end-of-stream signal (lines 58-63). -/
theorem Read_remaining (sb : Int → List Nat) (s : SineWave) (buf : List Nat)
    (h : s.remaining ≠ []) :
    Read sb s buf = (s.remaining.take (min buf.length s.remaining.length), false,
      { s with remaining := s.remaining.drop (min buf.length s.remaining.length) }) := by
  rw [Read, if_pos (List.length_pos.mpr h)]

/-- One `Read` call preserves the state invariant, never changes `length`,
`channelCount` or `format`, and never decreases the cursor. -/
theorem Read_preserves (sb : Int → List Nat) (s : SineWave) (buf : List Nat)
    (hsb : ∀ q, (sb q).length = formatByteLength s.format)
    (h : GoodState s) :
    GoodState (Read sb s buf).2.2 ∧
      (Read sb s buf).2.2.length = s.length ∧
      (Read sb s buf).2.2.channelCount = s.channelCount ∧
      (Read sb s buf).2.2.format = s.format ∧
      s.pos ≤ (Read sb s buf).2.2.pos := by
  obtain ⟨h1, h2, h3, h4, h5⟩ := h
  by_cases hrem : s.remaining = []
  · by_cases hpl : s.pos = s.length
    · rw [Read_exhausted sb s buf hrem hpl]
      exact ⟨⟨h1, h2, h3, h4, h5⟩, rfl, rfl, rfl, le_refl _⟩
    · have hk := Int.toNat_of_nonneg h1
      have hL0 : 0 ≤ s.length := le_trans h1 h2
      have hLn := Int.toNat_of_nonneg hL0
      set k := s.pos.toNat with hkdef
      set LN := s.length.toNat with hLNdef
      set w0 := min buf.length (LN - k) with hw0
      set wl := w0 + (4 - w0 % 4) % 4 with hwl
      obtain ⟨rest, hrest, heq⟩ := Read_branch3 sb s buf k LN
        (formatByteLength s.format * s.channelCount) w0 wl
        rfl hsb hrem hk.symm hLn.symm (by omega) (by omega) (by omega) hw0 hwl
      rw [heq]
      simp only [GoodState]
      have hwlle : k + wl ≤ LN := by omega
      have hgen := genFrames_length sb s.channelCount (formatByteLength s.format)
        hsb ((k / (formatByteLength s.format * s.channelCount) : Nat) : Int)
        (wl / (formatByteLength s.format * s.channelCount))
      have hcomm : s.channelCount * formatByteLength s.format
          = formatByteLength s.format * s.channelCount := Nat.mul_comm _ _
      have hdm := Nat.div_mul_le_self wl (formatByteLength s.format * s.channelCount)
      have hdm2 : wl / (formatByteLength s.format * s.channelCount)
            * (formatByteLength s.format * s.channelCount)
          = (formatByteLength s.format * s.channelCount)
            * (wl / (formatByteLength s.format * s.channelCount)) := Nat.mul_comm _ _
      refine ⟨⟨by positivity, ?_, by omega, h4, ?_⟩, trivial, trivial, trivial, by omega⟩
      · rw [← hLn]
        exact_mod_cast hwlle
      · rw [List.length_drop, List.length_append, hgen, hcomm, hrest]
        omega
  · rw [Read_remaining sb s buf hrem]
    refine ⟨⟨h1, h2, h3, h4, ?_⟩, rfl, rfl, rfl, le_refl _⟩
    simp only [List.length_drop]
    omega

/-- Any sequence of `Read` calls preserves the state invariant, the
immutable fields, and cursor monotonicity. -/
theorem runReads_preserves (sb : Int → List Nat) (bufs : List (List Nat))
    (s : SineWave)
    (hsb : ∀ q, (sb q).length = formatByteLength s.format)
    (h : GoodState s) :
    GoodState (runReads sb s bufs).2 ∧
      (runReads sb s bufs).2.length = s.length ∧
      (runReads sb s bufs).2.channelCount = s.channelCount ∧
      (runReads sb s bufs).2.format = s.format ∧
      s.pos ≤ (runReads sb s bufs).2.pos := by
  induction bufs generalizing s with
  | nil => exact ⟨h, rfl, rfl, rfl, le_refl _⟩
  | cons b bs ih =>
    obtain ⟨hg, hlen, hcc, hfmt, hmono⟩ := Read_preserves sb s b hsb h
    obtain ⟨hg2, hlen2, hcc2, hfmt2, hmono2⟩ :=
      ih (Read sb s b).2.2 (by rw [hfmt]; exact hsb) hg
    rw [runReads]
    simp only []
    exact ⟨hg2, by rw [hlen2, hlen], by rw [hcc2, hcc], by rw [hfmt2, hfmt],
      le_trans hmono hmono2⟩

/-- One `Read` step preserves the chunking-simulation invariant when the
frame size divides 4, and the delivered bytes are exactly the next
`k' - k` bytes of the ideal output. -/
theorem ChunkInv_step (sb : Int → List Nat) (c : Nat) (fmt : Format) (m : Nat)
    (hsb : ∀ q, (sb q).length = formatByteLength fmt)
    (hdvd : formatByteLength fmt * c ∣ 4)
    (hm4 : (m * (formatByteLength fmt * c)) % 4 = 0)
    (s : SineWave) (k : Nat) (buf : List Nat)
    (hinv : ChunkInv sb c fmt m s k) :
    ∃ k', k ≤ k' ∧ ChunkInv sb c fmt m (Read sb s buf).2.2 k' ∧
      (Read sb s buf).1 = ((genFrames sb c 0 m).drop k).take (k' - k) := by
  obtain ⟨hcc, hfmt, hlen, r, hpos, hrem, hmod, hbound⟩ := hinv
  have hSlen : (genFrames sb c 0 m).length = m * (formatByteLength fmt * c) := by
    rw [genFrames_length sb c (formatByteLength fmt) hsb]
    ring
  by_cases hr : s.remaining = []
  · by_cases hpl : s.pos = s.length
    · -- exhausted: nothing delivered, state unchanged
      rw [Read_exhausted sb s buf hr hpl]
      exact ⟨k, le_refl k, ⟨hcc, hfmt, hlen, r, hpos, hrem, hmod, hbound⟩,
        by simp⟩
    · -- generation step
      have hne : k + r ≠ m * (formatByteLength fmt * c) := fun hcon =>
        hpl (by rw [hpos, hlen, hcon])
      have hklt' : k + r < m * (formatByteLength fmt * c) := by omega
      have hreq : r = 0 := by
        rcases Nat.eq_zero_or_pos r with h | h
        · exact h
        · exfalso
          have hne2 : ((genFrames sb c 0 m).drop k).take r ≠ [] := by
            apply List.ne_nil_of_length_pos
            rw [List.length_take, List.length_drop, hSlen]
            omega
          rw [hr] at hrem
          exact hne2 hrem.symm
      subst hreq
      have hpos' : s.pos = (k : Int) := by simpa using hpos
      have heq := Read_gen sb s buf m k (formatByteLength fmt * c)
        (min buf.length (m * (formatByteLength fmt * c) - k))
        (min buf.length (m * (formatByteLength fmt * c) - k) +
          (4 - (min buf.length (m * (formatByteLength fmt * c) - k)) % 4) % 4)
        (by rw [hfmt, hcc]) (by rw [hfmt]; exact hsb) hdvd hr hpos' hlen
        (by omega) hm4 (by omega) rfl rfl
      rw [heq]
      refine ⟨k + min buf.length (m * (formatByteLength fmt * c) - k),
        by omega,
        ⟨hcc, hfmt, hlen,
          (min buf.length (m * (formatByteLength fmt * c) - k) +
            (4 - (min buf.length (m * (formatByteLength fmt * c) - k)) % 4) % 4) -
            min buf.length (m * (formatByteLength fmt * c) - k),
          ?_, ?_, by omega, by omega⟩, ?_⟩
      · simp only []
        congr 1
        omega
      · simp only [hcc]
        rw [List.drop_take, List.drop_drop]
      · simp only [hcc]
        congr 1
        omega
  · -- serve the carry-over buffer first
    rw [Read_remaining sb s buf hr]
    have hrl : s.remaining.length =
        min r (m * (formatByteLength fmt * c) - k) := by
      rw [hrem, List.length_take, List.length_drop, hSlen]
    have hnr : min buf.length s.remaining.length ≤ r := by
      have := min_le_right buf.length s.remaining.length
      omega
    refine ⟨k + min buf.length s.remaining.length, by omega,
      ⟨hcc, hfmt, hlen, r - min buf.length s.remaining.length, ?_, ?_,
        by omega, by omega⟩, ?_⟩
    · simp only []
      rw [hpos]
      congr 1
      omega
    · simp only []
      rw [hrem, List.drop_take, List.drop_drop]
    · simp only []
      rw [hrem, List.take_take]
      have hX := List.length_take_le r (List.drop k (genFrames sb c 0 m))
      congr 1
      omega

/-- A sequence of `Read` calls delivers, in order, a prefix of the ideal
output, maintaining the simulation invariant. -/
theorem runReads_sim (sb : Int → List Nat) (c : Nat) (fmt : Format) (m : Nat)
    (hsb : ∀ q, (sb q).length = formatByteLength fmt)
    (hdvd : formatByteLength fmt * c ∣ 4)
    (hm4 : (m * (formatByteLength fmt * c)) % 4 = 0)
    (bufs : List (List Nat)) :
    ∀ (s : SineWave) (k : Nat), ChunkInv sb c fmt m s k →
      ∃ k', k ≤ k' ∧ ChunkInv sb c fmt m (runReads sb s bufs).2 k' ∧
        runOut sb s bufs = ((genFrames sb c 0 m).drop k).take (k' - k) := by
  induction bufs with
  | nil =>
    intro s k hinv
    exact ⟨k, le_refl k, hinv, by simp [runOut, runReads]⟩
  | cons b bs ih =>
    intro s k hinv
    obtain ⟨k1, hk1, hinv1, hout1⟩ := ChunkInv_step sb c fmt m hsb hdvd hm4 s k b hinv
    obtain ⟨k2, hk2, hinv2, hout2⟩ := ih (Read sb s b).2.2 k1 hinv1
    refine ⟨k2, le_trans hk1 hk2, ?_, ?_⟩
    · rw [runReads]
      simp only []
      exact hinv2
    · have hflat : runOut sb s (b :: bs) =
          (Read sb s b).1 ++ runOut sb (Read sb s b).2.2 bs := by
        rw [runOut, runReads]
        simp [runOut]
      rw [hflat, hout1, hout2]
      have hadd : k2 - k = (k1 - k) + (k2 - k1) := by omega
      rw [hadd, List.take_add, List.drop_drop]
      have hkk : k + (k1 - k) = k1 := by omega
      rw [hkk]

/-- Length of the generated working buffer: the frames plus the untouched
tail have exactly the working buffer's length. -/
theorem gen_length (sb : Int → List Nat) (c L : Nat)
    (hsb : ∀ q, (sb q).length = L) (p : Int) (w : List Nat) :
    (genFrames sb c p (w.length / (L * c)) ++
      w.drop ((L * c) * (w.length / (L * c)))).length = w.length := by
  rw [List.length_append, genFrames_length sb c L hsb, List.length_drop]
  have h1 := Nat.div_mul_le_self w.length (L * c)
  have h2 : w.length / (L * c) * (c * L) = (L * c) * (w.length / (L * c)) := by
    ring
  have h3 : w.length / (L * c) * (L * c) = (L * c) * (w.length / (L * c)) := by
    ring
  omega

/-- `Read` never changes `length`, `channelCount` or `format`, in any
branch and from any state. -/
theorem Read_fields (sb : Int → List Nat) (s : SineWave) (buf : List Nat) :
    (Read sb s buf).2.2.length = s.length ∧
      (Read sb s buf).2.2.channelCount = s.channelCount ∧
      (Read sb s buf).2.2.format = s.format := by
  rw [Read]
  simp only []
  split_ifs <;> exact ⟨rfl, rfl, rfl⟩

/-- The cursor never decreases across a `Read`, from any state. -/
theorem Read_pos_mono (sb : Int → List Nat) (s : SineWave) (buf : List Nat) :
    s.pos ≤ (Read sb s buf).2.2.pos := by
  rw [Read]
  simp only []
  split_ifs <;> simp only [] <;> omega

/-- The carry-over buffer never exceeds 3 bytes after a `Read`, from any
state whose carry-over is within the bound — regardless of position,
length, channel count or format. -/
theorem Read_rem3 (sb : Int → List Nat) (s : SineWave) (buf : List Nat)
    (hsb : ∀ q, (sb q).length = formatByteLength s.format)
    (h : s.remaining.length ≤ 3) :
    (Read sb s buf).2.2.remaining.length ≤ 3 := by
  rw [Read]
  by_cases h1 : 0 < s.remaining.length
  · rw [if_pos h1]
    simp only [List.length_drop]
    omega
  · rw [if_neg h1]
    by_cases h2 : s.pos = s.length
    · rw [if_pos h2]
      simpa using h
    · rw [if_neg h2]
      simp only []
      split_ifs
      all_goals simp only []
      all_goals
        first
        | exact h
        | (rw [List.length_drop,
            gen_length sb s.channelCount (formatByteLength s.format) hsb,
            List.length_replicate]
           omega)

/-- Along any sequence of `Read` calls the carry-over buffer stays within
3 bytes. -/
theorem runReads_rem3 (sb : Int → List Nat) (bufs : List (List Nat))
    (s : SineWave)
    (hsb : ∀ q, (sb q).length = formatByteLength s.format)
    (h : s.remaining.length ≤ 3) :
    (runReads sb s bufs).2.remaining.length ≤ 3 := by
  induction bufs generalizing s with
  | nil => exact h
  | cons b bs ih =>
    rw [runReads]
    simp only []
    refine ih (Read sb s b).2.2 ?_ (Read_rem3 sb s b hsb h)
    rw [(Read_fields sb s b).2.2]
    exact hsb

/-! ## Claim theorems -/

/-- C4 counterexample: the claim says a zero *or negative* duration yields
`totalLength = 0`, but `NewSineWave` with duration `-1 s` (sample rate
44100, 1 channel, signed-16-bit) computes `totalLength = -88200 ≠ 0`:
Go truncating division keeps the negative product. -/
theorem c4_counterexample :
    (NewSineWave 44100 (-1000000000) 1 Format.signedInt16LE).length = -88200 ∧
      (-88200 : Int) ≠ 0 := by
  exact ⟨by decide, by decide⟩

/-- C4 (amended): for every sample rate, channel count and format, a *zero*
duration yields `totalLength = 0`, and the very first `Read` returns 0
bytes with the end-of-stream signal, leaving the state unchanged. -/
theorem c4_zero_duration (sb : Int → List Nat) (sr : Int) (c : Nat)
    (fmt : Format) (buf : List Nat) :
    (NewSineWave sr 0 c fmt).length = 0 ∧
      Read sb (NewSineWave sr 0 c fmt) buf = ([], true, NewSineWave sr 0 c fmt) := by
  have hlen : (NewSineWave sr 0 c fmt).length = 0 := by
    simp only [NewSineWave, mul_zero]
    norm_num [wrap64, Int.zero_tdiv]
  refine ⟨hlen, Read_exhausted sb _ buf rfl ?_⟩
  rw [hlen]
  rfl

/-- C6 counterexample: for duration `-1000000001 ns` (u8, 1 channel,
sample rate 44100) the exact product is `-44100.0000441` bytes; rounding
it *down* to a multiple of 4 gives `-44104`, but the code's truncating
divisions give `-44100`. -/
theorem c6_counterexample :
    (NewSineWave 44100 (-1000000001) 1 Format.unsignedInt8).length = -44100 ∧
      4 * (((1 : Int) * (formatByteLength Format.unsignedInt8 : Int) * 44100 *
        (-1000000001)) / (4 * 1000000000)) = -44104 ∧
      (-44100 : Int) ≠ -44104 := by
  refine ⟨by decide, by decide, by decide⟩

/-- C6 (amended): for nonnegative sample rate and duration, when no
intermediate `int64` product overflows, `totalLength` equals the exact
byte count `channelCount * bytesPerSample * sampleRate * durationNs / 1e9`
rounded down to a multiple of 4; and for *all* parameters (overflow or
not) `totalLength` is a multiple of 4. -/
theorem c6_total_length (sr durNs : Int) (c : Nat) (fmt : Format)
    (h1 : 0 ≤ sr) (h2 : 0 ≤ durNs)
    (hb1 : (c : Int) * (formatByteLength fmt : Int) < 2 ^ 63)
    (hb2 : (c : Int) * (formatByteLength fmt : Int) * sr < 2 ^ 63)
    (hb3 : (c : Int) * (formatByteLength fmt : Int) * sr * durNs < 2 ^ 63) :
    (NewSineWave sr durNs c fmt).length =
      4 * (((c : Int) * (formatByteLength fmt : Int) * sr * durNs) /
        (4 * 1000000000)) ∧
    ∀ (sr' d' : Int) (c' : Nat) (f' : Format),
      (NewSineWave sr' d' c' f').length % 4 = 0 := by
  refine ⟨?_, fun sr' d' c' f' => NewSineWave_length_mod4 sr' d' c' f'⟩
  have hP0 : (0 : Int) ≤ (c : Int) * (formatByteLength fmt : Int) := by positivity
  have hP1 : (0 : Int) ≤ (c : Int) * (formatByteLength fmt : Int) * sr := by
    positivity
  have hP2 : (0 : Int) ≤ (c : Int) * (formatByteLength fmt : Int) * sr * durNs := by
    positivity
  simp only [NewSineWave]
  rw [wrap64_eq_self _ (by omega) hb1, wrap64_eq_self _ (by omega) hb2,
    wrap64_eq_self _ (by omega) hb3]
  rw [Int.tdiv_eq_ediv hP2 (by norm_num),
    Int.tdiv_eq_ediv (Int.ediv_nonneg hP2 (by norm_num)) (by norm_num)]
  omega

/-- C6 witness: the default configuration (sample rate 44100, 1 second,
1 channel, signed-16-bit) is within bounds and gives 88200 bytes. -/
theorem c6_total_length_witness :
    (NewSineWave 44100 1000000000 1 Format.signedInt16LE).length =
      4 * (((1 : Int) * (formatByteLength Format.signedInt16LE : Int) * 44100 *
        1000000000) / (4 * 1000000000)) ∧
    ∀ (sr' d' : Int) (c' : Nat) (f' : Format),
      (NewSineWave sr' d' c' f').length % 4 = 0 :=
  c6_total_length 44100 1000000000 1 Format.signedInt16LE (by norm_num)
    (by norm_num) (by decide) (by decide) (by decide)

/-- C9: `InitAudioContext` maps the three valid format strings to their
sample formats and rejects every other string with a descriptive error,
before any audio context is created (the `oto.NewContext` call comes only
after the successful `switch`). -/
theorem c9_format_validation (f : String)
    (h1 : f ≠ "u8") (h2 : f ≠ "s16le") (h3 : f ≠ "f32le") :
    InitAudioContext f =
      .error ("format must be u8, s16le, or f32le but: " ++ f) ∧
    InitAudioContext "u8" = .ok Format.unsignedInt8 ∧
    InitAudioContext "s16le" = .ok Format.signedInt16LE ∧
    InitAudioContext "f32le" = .ok Format.float32LE := by
  refine ⟨?_, rfl, rfl, rfl⟩
  rw [InitAudioContext, if_neg h3, if_neg h1, if_neg h2]

/-- C9 witness: the string "wav" is rejected with the descriptive error. -/
theorem c9_format_validation_witness :
    InitAudioContext "wav" =
      .error ("format must be u8, s16le, or f32le but: " ++ "wav") ∧
    InitAudioContext "u8" = .ok Format.unsignedInt8 ∧
    InitAudioContext "s16le" = .ok Format.signedInt16LE ∧
    InitAudioContext "f32le" = .ok Format.float32LE :=
  c9_format_validation "wav" (by decide) (by decide) (by decide)

/-- C2 counterexample: for a 1-channel unsigned-8-bit stream the frame size
is 1, so the claimed bound is `frameSize - 1 = 0`; but a `Read` with a
1-byte buffer rounds the working length up to 4 and leaves 3 carry-over
bytes.  (The sample function is instantiated with the real frame-0-correct
single-byte encoder output; only its byte *count* — 1 byte per sample, as
every `u8` encode writes — matters to the carry-over length.) -/
theorem c2_counterexample :
    (Read (fun _ => [128]) (NewSineWave 4 1000000000 1 Format.unsignedInt8)
      [0]).2.2.remaining.length = 3 ∧
    formatByteLength (NewSineWave 4 1000000000 1 Format.unsignedInt8).format *
      (NewSineWave 4 1000000000 1 Format.unsignedInt8).channelCount - 1 = 0 ∧
    ¬ (3 : Nat) ≤ 0 := by
  refine ⟨by decide, by decide, by decide⟩

/-- C2 (amended): after any sequence of `Read` calls on any stream built by
`NewSineWave`, the carry-over buffer holds at most 3 bytes (the scratch
buffer rounds the working length up to a multiple of 4, so at most 3 bytes
ever spill over — a bound independent of the frame size). -/
theorem c2_pending_le_three (sb : Int → List Nat) (sr durNs : Int) (c : Nat)
    (fmt : Format) (bufs : List (List Nat))
    (hsb : ∀ q, (sb q).length = formatByteLength fmt) :
    (runReads sb (NewSineWave sr durNs c fmt) bufs).2.remaining.length ≤ 3 :=
  runReads_rem3 sb bufs (NewSineWave sr durNs c fmt) hsb (by norm_num [NewSineWave])

/-- C2 witness: a concrete run. -/
theorem c2_pending_le_three_witness :
    (runReads (fun _ => ([0, 0] : List Nat))
      (NewSineWave 4 1000000000 1 Format.signedInt16LE) [[0]]).2.remaining.length ≤ 3 :=
  c2_pending_le_three (fun _ => ([0, 0] : List Nat)) 4 1000000000 1
    Format.signedInt16LE [[0]] (fun _ => rfl)

/-- C10 counterexample: with sample rate `2^31` and duration `2^32` ns
(both representable, duration ≈ 4.3 s) the `int64` product wraps to
`-2^63` and `totalLength` becomes negative, so `0 ≤ pos ≤ totalLength`
fails immediately after construction despite the nonnegative duration. -/
theorem c10_counterexample :
    (NewSineWave 2147483648 4294967296 1 Format.unsignedInt8).length <
      (NewSineWave 2147483648 4294967296 1 Format.unsignedInt8).pos := by
  decide

/-- C10 (amended): for nonnegative sample rate and duration with no
intermediate `int64` product reaching `2^63`, after construction and after
every sequence of `Read` calls the cursor is a multiple of 4 with
`0 ≤ pos ≤ totalLength`, and the carry-over buffer holds at most 3 bytes —
so the exhaustion test `pos == totalLength` is reached exactly. -/
theorem c10_invariant (sb : Int → List Nat) (sr durNs : Int) (c : Nat)
    (fmt : Format) (bufs : List (List Nat))
    (hsb : ∀ q, (sb q).length = formatByteLength fmt)
    (h1 : 0 ≤ sr) (h2 : 0 ≤ durNs)
    (hb1 : (c : Int) * (formatByteLength fmt : Int) < 2 ^ 63)
    (hb2 : (c : Int) * (formatByteLength fmt : Int) * sr < 2 ^ 63)
    (hb3 : (c : Int) * (formatByteLength fmt : Int) * sr * durNs < 2 ^ 63) :
    0 ≤ (runReads sb (NewSineWave sr durNs c fmt) bufs).2.pos ∧
    (runReads sb (NewSineWave sr durNs c fmt) bufs).2.pos ≤
      (runReads sb (NewSineWave sr durNs c fmt) bufs).2.length ∧
    (runReads sb (NewSineWave sr durNs c fmt) bufs).2.pos % 4 = 0 ∧
    (runReads sb (NewSineWave sr durNs c fmt) bufs).2.remaining.length ≤ 3 := by
  have hL0 : 0 ≤ (NewSineWave sr durNs c fmt).length := by
    have hP0 : (0 : Int) ≤ (c : Int) * (formatByteLength fmt : Int) := by positivity
    have hP1 : (0 : Int) ≤ (c : Int) * (formatByteLength fmt : Int) * sr := by
      positivity
    have hP2 : (0 : Int) ≤ (c : Int) * (formatByteLength fmt : Int) * sr * durNs := by
      positivity
    simp only [NewSineWave]
    rw [wrap64_eq_self _ (by omega) hb1, wrap64_eq_self _ (by omega) hb2,
      wrap64_eq_self _ (by omega) hb3]
    rw [Int.tdiv_eq_ediv hP2 (by norm_num),
      Int.tdiv_eq_ediv (Int.ediv_nonneg hP2 (by norm_num)) (by norm_num)]
    omega
  have hgood : GoodState (NewSineWave sr durNs c fmt) := by
    refine ⟨le_refl 0, hL0, by norm_num [NewSineWave],
      NewSineWave_length_mod4 sr durNs c fmt, ?_⟩
    norm_num [NewSineWave]
  obtain ⟨⟨g1, g2, g3, g4, g5⟩, _, _, _, _⟩ :=
    runReads_preserves sb bufs (NewSineWave sr durNs c fmt) hsb hgood
  exact ⟨g1, g2, g3, g5⟩

/-- C10 witness: a concrete in-bounds run. -/
theorem c10_invariant_witness :
    0 ≤ (runReads (fun _ => ([0, 0] : List Nat))
        (NewSineWave 44100 1000000000 1 Format.signedInt16LE) [[0, 0, 0], [0]]).2.pos ∧
    (runReads (fun _ => ([0, 0] : List Nat))
        (NewSineWave 44100 1000000000 1 Format.signedInt16LE) [[0, 0, 0], [0]]).2.pos ≤
      (runReads (fun _ => ([0, 0] : List Nat))
        (NewSineWave 44100 1000000000 1 Format.signedInt16LE) [[0, 0, 0], [0]]).2.length ∧
    (runReads (fun _ => ([0, 0] : List Nat))
        (NewSineWave 44100 1000000000 1 Format.signedInt16LE) [[0, 0, 0], [0]]).2.pos % 4 = 0 ∧
    (runReads (fun _ => ([0, 0] : List Nat))
        (NewSineWave 44100 1000000000 1 Format.signedInt16LE)
        [[0, 0, 0], [0]]).2.remaining.length ≤ 3 :=
  c10_invariant (fun _ => ([0, 0] : List Nat)) 44100 1000000000 1
    Format.signedInt16LE [[0, 0, 0], [0]] (fun _ => rfl) (by norm_num)
    (by norm_num) (by decide) (by decide) (by decide)

/-- C5 counterexample: a 3-byte fill on a 4-byte stream generates 4 bytes,
delivers 3, and leaves the cursor at `totalLength` with 1 pending byte; the
*next* fill returns 1 byte and **no** end-of-stream signal, so
`cursor == totalLength` alone is not a terminal state.  (Only byte counts
and flags are asserted; they are independent of the sample values.) -/
theorem c5_counterexample :
    (runReads (fun _ => [128]) (NewSineWave 4 1000000000 1 Format.unsignedInt8)
        [[0, 0, 0]]).2.pos =
      (runReads (fun _ => [128]) (NewSineWave 4 1000000000 1 Format.unsignedInt8)
        [[0, 0, 0]]).2.length ∧
    (runReads (fun _ => [128]) (NewSineWave 4 1000000000 1 Format.unsignedInt8)
        [[0, 0, 0], [0]]).1.map (fun r => (r.1.length, r.2)) =
      [(3, false), (1, false)] := by
  refine ⟨by decide, by decide⟩

/-- C5 (amended): once the cursor equals `totalLength` **and the carry-over
buffer is empty**, every subsequent fill, indefinitely, returns 0 bytes
with the end-of-stream signal and leaves the state unchanged; and the
cursor never decreases across any `Read` on any stream. -/
theorem c5_exhausted_terminal (sb : Int → List Nat) (s : SineWave)
    (h1 : s.pos = s.length) (h2 : s.remaining = []) :
    (∀ bufs : List (List Nat),
        runReads sb s bufs = (bufs.map (fun _ => (([] : List Nat), true)), s)) ∧
    (∀ (t : SineWave) (buf : List Nat), t.pos ≤ (Read sb t buf).2.2.pos) := by
  constructor
  · intro bufs
    induction bufs with
    | nil => rfl
    | cons b bs ih =>
      simp only [runReads, Read_exhausted sb s b h2 h1, ih, List.map_cons]
  · intro t buf
    exact Read_pos_mono sb t buf

/-- C5 witness: a zero-length stream is exhausted from the start. -/
theorem c5_exhausted_terminal_witness :
    runReads (fun _ => ([128] : List Nat)) (NewSineWave 4 0 1 Format.unsignedInt8)
        [[0], [0, 0]] =
      ([([], true), ([], true)], NewSineWave 4 0 1 Format.unsignedInt8) ∧
    (NewSineWave 4 1000000000 1 Format.unsignedInt8).pos ≤
      (Read (fun _ => ([128] : List Nat))
        (NewSineWave 4 1000000000 1 Format.unsignedInt8) [0]).2.2.pos := by
  have h := c5_exhausted_terminal (fun _ => ([128] : List Nat))
    (NewSineWave 4 0 1 Format.unsignedInt8) (by decide) (by decide)
  refine ⟨?_, h.2 _ _⟩
  have h1 := h.1 [[0], [0, 0]]
  simpa using h1

/-- C3 counterexample: stream of `totalLength` 4 at cursor 0, fill with a
buffer of exactly 4 bytes: `requested = min(4, 4) = 4` and
`cursor + requested == totalLength`, but the code only sets the
end-of-stream flag when `pos + len(buf) > length` *strictly*, so the call
returns 4 bytes with **no** end-of-stream signal. -/
theorem c3_counterexample :
    (Read (fun _ => [128]) (NewSineWave 4 1000000000 1 Format.unsignedInt8)
      (List.replicate 4 0)).2.1 = false ∧
    (Read (fun _ => [128]) (NewSineWave 4 1000000000 1 Format.unsignedInt8)
      (List.replicate 4 0)).1.length = 4 ∧
    (NewSineWave 4 1000000000 1 Format.unsignedInt8).length = 4 := by
  refine ⟨by decide, by decide, by decide⟩

/-- C3 (amended): on a non-exhausted 4-aligned stream with empty carry-over
at cursor `k` of `LN` total bytes, the end-of-stream signal accompanies the
delivered count when the buffer *strictly* overshoots
(`len(buffer) > totalLength - cursor`, delivering `totalLength - cursor`
bytes); on an exact fit (`cursor + len(buffer) == totalLength`) the bytes
are delivered with no signal, which the following call then produces. -/
theorem c3_eof_condition (sb : Int → List Nat) (s : SineWave) (buf : List Nat)
    (k LN : Nat)
    (hsb : ∀ q, (sb q).length = formatByteLength s.format)
    (hrem : s.remaining = [])
    (hpos : s.pos = (k : Int)) (hlen : s.length = (LN : Int))
    (hk4 : k % 4 = 0) (hl4 : LN % 4 = 0) (hklt : k < LN) :
    (LN < k + buf.length →
      (Read sb s buf).2.1 = true ∧ (Read sb s buf).1.length = LN - k) ∧
    (k + buf.length = LN →
      (Read sb s buf).2.1 = false ∧ (Read sb s buf).1.length = buf.length) := by
  obtain ⟨rest, hrest, heq⟩ := Read_branch3 sb s buf k LN
    (formatByteLength s.format * s.channelCount)
    (min buf.length (LN - k))
    (min buf.length (LN - k) + (4 - (min buf.length (LN - k)) % 4) % 4)
    rfl hsb hrem hpos hlen hk4 hl4 hklt rfl rfl
  have hgrl : (genFrames sb s.channelCount
      ((k / (formatByteLength s.format * s.channelCount) : Nat) : Int)
      ((min buf.length (LN - k) + (4 - (min buf.length (LN - k)) % 4) % 4) /
        (formatByteLength s.format * s.channelCount)) ++ rest).length =
      min buf.length (LN - k) + (4 - (min buf.length (LN - k)) % 4) % 4 := by
    rw [List.length_append,
      genFrames_length sb s.channelCount (formatByteLength s.format) hsb, hrest]
    have h1 := Nat.div_mul_le_self
      (min buf.length (LN - k) + (4 - (min buf.length (LN - k)) % 4) % 4)
      (formatByteLength s.format * s.channelCount)
    have h2 : (min buf.length (LN - k) + (4 - (min buf.length (LN - k)) % 4) % 4) /
          (formatByteLength s.format * s.channelCount) *
          (s.channelCount * formatByteLength s.format) =
        (formatByteLength s.format * s.channelCount) *
          ((min buf.length (LN - k) + (4 - (min buf.length (LN - k)) % 4) % 4) /
            (formatByteLength s.format * s.channelCount)) := by
      ring
    have h3 : (min buf.length (LN - k) + (4 - (min buf.length (LN - k)) % 4) % 4) /
          (formatByteLength s.format * s.channelCount) *
          (formatByteLength s.format * s.channelCount) =
        (formatByteLength s.format * s.channelCount) *
          ((min buf.length (LN - k) + (4 - (min buf.length (LN - k)) % 4) % 4) /
            (formatByteLength s.format * s.channelCount)) := by
      ring
    omega
  constructor
  · intro hlt
    rw [heq]
    simp only [List.length_take, hgrl]
    refine ⟨by simp [hlt], by omega⟩
  · intro hfit
    rw [heq]
    simp only [List.length_take, hgrl]
    refine ⟨by simp; omega, by omega⟩

/-- C3 witness: strict overshoot on a fresh 4-byte stream. -/
theorem c3_eof_condition_witness :
    (Read (fun _ => ([128] : List Nat))
      (NewSineWave 4 1000000000 1 Format.unsignedInt8) (List.replicate 8 0)).2.1
      = true ∧
    (Read (fun _ => ([128] : List Nat))
      (NewSineWave 4 1000000000 1 Format.unsignedInt8)
      (List.replicate 8 0)).1.length = 4 - 0 :=
  (c3_eof_condition (fun _ => ([128] : List Nat))
    (NewSineWave 4 1000000000 1 Format.unsignedInt8) (List.replicate 8 0) 0 4
    (fun _ => rfl) rfl (by decide) (by decide) (by decide) (by decide)
    (by decide)).1 (by decide)

/-- Any channel slot of any frame of the generated prefix holds exactly the
sample bytes of that frame's position, also through an appended tail. -/
theorem gen_slot_append (sb : Int → List Nat) (c L : Nat)
    (hsb : ∀ q, (sb q).length = L) (p : Int) (n : Nat) (rest : List Nat)
    (i ch : Nat) (hi : i < n) (hch : ch < c) :
    ((genFrames sb c p n ++ rest).drop (L * c * i + L * ch)).take L
      = sb (p + i) := by
  have hlen : (genFrames sb c p n).length = n * (c * L) :=
    genFrames_length sb c L hsb p n
  have hb1 : (i + 1) * (c * L) ≤ n * (c * L) :=
    Nat.mul_le_mul_right _ (by omega)
  have hb2 : L * (ch + 1) ≤ L * c := Nat.mul_le_mul_left _ (by omega)
  have he1 : (i + 1) * (c * L) = c * L * i + c * L := by ring
  have he2 : L * (ch + 1) = L * ch + L := by ring
  have he3 : L * c * i = c * L * i := by ring
  have he4 : L * c = c * L := by ring
  rw [List.drop_append_of_le_length (by omega)]
  rw [List.take_append_of_le_length ?_]
  · have he5 : L * c * i + L * ch = c * L * i + L * ch := by ring
    rw [he5]
    exact genFrames_slot sb c L hsb p n i ch hi hch
  · rw [List.length_drop, hlen]
    omega

/-- C7: the concrete scenario — `create(440 Hz, 1 s, 1 channel,
signed-16-bit, 44100 Hz)` yields `totalLength = 88200` and the first two
output bytes of the first fill are `[0x00, 0x00]`: frame 0 encodes
`int16(sin(0) * 0.3 * 32767) = 0`, low byte then high byte, which is the
`sb 0 = zeroSampleBytes` hypothesis (exact since `math.Sin(0) = 0` in
IEEE 754). -/
theorem c7_concrete_scenario (sb : Int → List Nat)
    (hsb : ∀ q, (sb q).length = formatByteLength Format.signedInt16LE)
    (h0 : sb 0 = zeroSampleBytes Format.signedInt16LE) :
    (NewSineWave 44100 1000000000 1 Format.signedInt16LE).length = 88200 ∧
    ((Read sb (NewSineWave 44100 1000000000 1 Format.signedInt16LE)
      [0, 0, 0, 0]).1).take 2 = [0, 0] := by
  refine ⟨by decide, ?_⟩
  have heq := Read_gen sb (NewSineWave 44100 1000000000 1 Format.signedInt16LE)
    [0, 0, 0, 0] 44100 0 2 4 4 rfl hsb (by decide) rfl (by decide) (by decide)
    (by decide) (by decide) (by decide) (by decide) (by decide)
  rw [heq]
  simp only [List.drop_zero]
  rw [List.take_take]
  norm_num
  have hcc : (NewSineWave 44100 1000000000 1 Format.signedInt16LE).channelCount = 1 := rfl
  rw [hcc]
  have hgf : genFrames sb 1 0 44100 =
      frameBytes 1 (sb 0) ++ genFrames sb 1 (0 + 1) 44099 := rfl
  have hfb : frameBytes 1 (sb 0) = sb 0 ++ frameBytes 0 (sb 0) := rfl
  rw [hgf, hfb, h0]
  simp [zeroSampleBytes, frameBytes]

/-- C7 witness: the hypotheses instantiated with the constant frame-0
sample bytes. -/
theorem c7_concrete_scenario_witness :
    (NewSineWave 44100 1000000000 1 Format.signedInt16LE).length = 88200 ∧
    ((Read (fun _ => ([0, 0] : List Nat))
      (NewSineWave 44100 1000000000 1 Format.signedInt16LE)
      [0, 0, 0, 0]).1).take 2 = [0, 0] :=
  c7_concrete_scenario (fun _ => ([0, 0] : List Nat)) (fun _ => rfl) rfl

/-- C8: channel replication — in every frame of the bytes produced by a
generating fill (delivered bytes plus carry-over), any two channel slots
hold identical sample bytes. -/
theorem c8_channel_replication (sb : Int → List Nat) (s : SineWave)
    (buf : List Nat) (k LN : Nat)
    (hsb : ∀ q, (sb q).length = formatByteLength s.format)
    (hrem : s.remaining = []) (hpos : s.pos = (k : Int))
    (hlen : s.length = (LN : Int)) (hk4 : k % 4 = 0) (hl4 : LN % 4 = 0)
    (hklt : k < LN) (i ch1 ch2 : Nat)
    (hch1 : ch1 < s.channelCount) (hch2 : ch2 < s.channelCount)
    (hi : i < (min buf.length (LN - k) +
        (4 - (min buf.length (LN - k)) % 4) % 4) /
        (formatByteLength s.format * s.channelCount)) :
    (((Read sb s buf).1 ++ (Read sb s buf).2.2.remaining).drop
        (formatByteLength s.format * s.channelCount * i +
          formatByteLength s.format * ch1)).take (formatByteLength s.format)
      =
      (((Read sb s buf).1 ++ (Read sb s buf).2.2.remaining).drop
        (formatByteLength s.format * s.channelCount * i +
          formatByteLength s.format * ch2)).take (formatByteLength s.format) := by
  obtain ⟨rest, hrest, heq⟩ := Read_branch3 sb s buf k LN
    (formatByteLength s.format * s.channelCount)
    (min buf.length (LN - k))
    (min buf.length (LN - k) + (4 - (min buf.length (LN - k)) % 4) % 4)
    rfl hsb hrem hpos hlen hk4 hl4 hklt rfl rfl
  rw [heq]
  simp only [List.take_append_drop]
  rw [gen_slot_append sb s.channelCount (formatByteLength s.format) hsb _ _
      rest i ch1 hi hch1,
    gen_slot_append sb s.channelCount (formatByteLength s.format) hsb _ _
      rest i ch2 hi hch2]

/-- C8 witness: a 2-channel unsigned-8-bit stream, frame 0, slots 0 and 1. -/
theorem c8_channel_replication_witness :
    (((Read (fun _ => ([128] : List Nat))
        (NewSineWave 4 1000000000 2 Format.unsignedInt8) [0, 0, 0, 0]).1 ++
      (Read (fun _ => ([128] : List Nat))
        (NewSineWave 4 1000000000 2 Format.unsignedInt8) [0, 0, 0, 0]).2.2.remaining).drop
        (formatByteLength Format.unsignedInt8 * 2 * 0 +
          formatByteLength Format.unsignedInt8 * 0)).take
        (formatByteLength Format.unsignedInt8)
      =
      (((Read (fun _ => ([128] : List Nat))
        (NewSineWave 4 1000000000 2 Format.unsignedInt8) [0, 0, 0, 0]).1 ++
      (Read (fun _ => ([128] : List Nat))
        (NewSineWave 4 1000000000 2 Format.unsignedInt8) [0, 0, 0, 0]).2.2.remaining).drop
        (formatByteLength Format.unsignedInt8 * 2 * 0 +
          formatByteLength Format.unsignedInt8 * 1)).take
        (formatByteLength Format.unsignedInt8) :=
  c8_channel_replication (fun _ => ([128] : List Nat))
    (NewSineWave 4 1000000000 2 Format.unsignedInt8) [0, 0, 0, 0] 0 8
    (fun _ => rfl) rfl (by decide) (by decide) (by decide) (by decide)
    (by decide) 0 0 1 (by decide) (by decide) (by decide)

/-- C1 counterexample: with the default signed-16-bit format and 10
channels the frame stride is 20 bytes; a fill with a 4-byte buffer
generates `4/20 = 0` frames and returns the caller's buffer content
untouched while still advancing the cursor by 4.  Filling a 40-byte stream
with ten 4-byte buffers holding `0xAA` therefore delivers forty `0xAA`
bytes, while the single large fill delivers the real frames, whose first
byte is the low byte of `int16(sin(0)*0.3*32767) = 0`.  The first
delivered bytes differ (`0xAA = 170` vs `0`), so the concatenation is not
byte-for-byte the reference sequence.  (The chunked bytes never touch the
sample function; the single-fill first byte uses only the frame-0 sample,
which is exactly 0.) -/
theorem c1_counterexample :
    (runOut (fun _ => ([0, 0] : List Nat))
      (NewSineWave 10 200000000 10 Format.signedInt16LE)
      (List.replicate 10 (List.replicate 4 170))).head? = some 170 ∧
    ((Read (fun _ => ([0, 0] : List Nat))
      (NewSineWave 10 200000000 10 Format.signedInt16LE)
      (List.replicate 44 170)).1).head? = some 0 ∧
    (runOut (fun _ => ([0, 0] : List Nat))
      (NewSineWave 10 200000000 10 Format.signedInt16LE)
      (List.replicate 10 (List.replicate 4 170))).length = 40 ∧
    ((runReads (fun _ => ([0, 0] : List Nat))
      (NewSineWave 10 200000000 10 Format.signedInt16LE)
      (List.replicate 10 (List.replicate 4 170))).2.pos =
      (NewSineWave 10 200000000 10 Format.signedInt16LE).length) := by
  refine ⟨by decide, by decide, by decide, by decide⟩

/-- C1 (amended): chunking invariance holds for streams whose frame size
`channelCount * bytesPerSample` divides 4 (then every 4-aligned working
buffer is a whole number of frames): for every nonnegative-length stream,
the concatenation of the bytes delivered by any sequence of fills is a
prefix of the single-large-fill output, with equality whenever the
sequence exhausts the stream (cursor at `totalLength`, empty carry-over). -/
theorem c1_chunking_invariance (sb : Int → List Nat) (sr durNs : Int)
    (c : Nat) (fmt : Format) (bufs : List (List Nat)) (bigBuf : List Nat)
    (hsb : ∀ q, (sb q).length = formatByteLength fmt)
    (hdvd : formatByteLength fmt * c ∣ 4)
    (hL : 0 ≤ (NewSineWave sr durNs c fmt).length)
    (hbig : (NewSineWave sr durNs c fmt).length ≤ (bigBuf.length : Int)) :
    runOut sb (NewSineWave sr durNs c fmt) bufs =
      ((Read sb (NewSineWave sr durNs c fmt) bigBuf).1).take
        (runOut sb (NewSineWave sr durNs c fmt) bufs).length ∧
    ((runReads sb (NewSineWave sr durNs c fmt) bufs).2.pos =
        (NewSineWave sr durNs c fmt).length ∧
      (runReads sb (NewSineWave sr durNs c fmt) bufs).2.remaining = [] →
      runOut sb (NewSineWave sr durNs c fmt) bufs =
        (Read sb (NewSineWave sr durNs c fmt) bigBuf).1) := by
  have hL4 := NewSineWave_length_mod4 sr durNs c fmt
  obtain ⟨LN, hLN⟩ : ∃ n : Nat, (NewSineWave sr durNs c fmt).length = (n : Int) :=
    ⟨_, (Int.toNat_of_nonneg hL).symm⟩
  have hLN4 : LN % 4 = 0 := by omega
  have hnum0 : 0 < formatByteLength fmt * c := by
    rcases Nat.eq_zero_or_pos (formatByteLength fmt * c) with h | h
    · rw [h] at hdvd
      exact absurd (Nat.eq_zero_of_zero_dvd hdvd) (by omega)
    · exact h
  have hnumLN : (formatByteLength fmt * c) ∣ LN :=
    dvd_trans hdvd (Nat.dvd_of_mod_eq_zero hLN4)
  obtain ⟨m, hm⟩ : ∃ m, LN = m * (formatByteLength fmt * c) :=
    ⟨LN / (formatByteLength fmt * c), (Nat.div_mul_cancel hnumLN).symm⟩
  have hm4 : (m * (formatByteLength fmt * c)) % 4 = 0 := by omega
  have hSlen : (genFrames sb c 0 m).length = m * (formatByteLength fmt * c) := by
    rw [genFrames_length sb c (formatByteLength fmt) hsb]
    ring
  have hinv0 : ChunkInv sb c fmt m (NewSineWave sr durNs c fmt) 0 := by
    refine ⟨rfl, rfl, by rw [hLN, hm], 0, by norm_num [NewSineWave], ?_,
      by norm_num, by omega⟩
    norm_num [NewSineWave]
  obtain ⟨kF, hkF, hinvF, houtF⟩ := runReads_sim sb c fmt m hsb hdvd hm4 bufs
    (NewSineWave sr durNs c fmt) 0 hinv0
  simp only [Nat.sub_zero, List.drop_zero] at houtF
  have hble : m * (formatByteLength fmt * c) ≤ bigBuf.length := by
    have h1 : (LN : Int) ≤ (bigBuf.length : Int) := hLN ▸ hbig
    have h2 : LN ≤ bigBuf.length := by exact_mod_cast h1
    omega
  have href : (Read sb (NewSineWave sr durNs c fmt) bigBuf).1 =
      genFrames sb c 0 m := by
    by_cases hz : LN = 0
    · have hpl : (NewSineWave sr durNs c fmt).pos =
          (NewSineWave sr durNs c fmt).length := by
        rw [hLN, hz]
        rfl
      rw [Read_exhausted sb _ bigBuf rfl hpl]
      have hm00 : m = 0 := by
        rcases Nat.mul_eq_zero.mp (by omega :
          m * (formatByteLength fmt * c) = 0) with h | h
        · exact h
        · omega
      rw [hm00]
      rfl
    · have heq := Read_gen sb (NewSineWave sr durNs c fmt) bigBuf m 0
        (formatByteLength fmt * c) (m * (formatByteLength fmt * c))
        (m * (formatByteLength fmt * c)) rfl hsb hdvd rfl
        (by norm_num [NewSineWave]) (by rw [hLN, hm]) (by norm_num) hm4
        (by omega) (by omega) (by omega)
      rw [heq]
      simp only [List.drop_zero]
      have hcc : (NewSineWave sr durNs c fmt).channelCount = c := rfl
      rw [hcc]
      exact List.take_of_length_le (le_of_eq hSlen)
  obtain ⟨hccF, hfmtF, hlenF, rF, hposF', hremF', hmodF, hbF⟩ := hinvF
  constructor
  · rw [houtF, href, List.length_take, hSlen]
    have hmin : min kF (m * (formatByteLength fmt * c)) = kF := by omega
    rw [hmin]
  · rintro ⟨hposF, hremF⟩
    have hsum : kF + rF = m * (formatByteLength fmt * c) := by
      have h1 : ((kF + rF : Nat) : Int) =
          ((m * (formatByteLength fmt * c) : Nat) : Int) := by
        rw [← hposF', hposF, hLN]
        exact_mod_cast congrArg Nat.cast hm
      exact_mod_cast h1
    have hkFeq : kF = m * (formatByteLength fmt * c) := by
      rcases Nat.eq_zero_or_pos rF with h | h
      · omega
      · by_contra hcon
        have hne : ((genFrames sb c 0 m).drop kF).take rF ≠ [] := by
          apply List.ne_nil_of_length_pos
          rw [List.length_take, List.length_drop, hSlen]
          omega
        exact hne (hremF'.symm.trans hremF)
    rw [houtF, href, hkFeq]
    exact List.take_of_length_le (le_of_eq hSlen)

/-- C1 witness: signed-16-bit mono (frame size 2 divides 4), 8-byte
stream, fills of 3 then 5 bytes, reference fill of 8 bytes. -/
theorem c1_chunking_invariance_witness :
    runOut (fun _ => ([0, 0] : List Nat)) (NewSineWave 4 1000000000 1
        Format.signedInt16LE) [[0, 0, 0], [0, 0, 0, 0, 0]] =
      ((Read (fun _ => ([0, 0] : List Nat)) (NewSineWave 4 1000000000 1
          Format.signedInt16LE) (List.replicate 8 0)).1).take
        (runOut (fun _ => ([0, 0] : List Nat)) (NewSineWave 4 1000000000 1
          Format.signedInt16LE) [[0, 0, 0], [0, 0, 0, 0, 0]]).length ∧
    ((runReads (fun _ => ([0, 0] : List Nat)) (NewSineWave 4 1000000000 1
          Format.signedInt16LE) [[0, 0, 0], [0, 0, 0, 0, 0]]).2.pos =
        (NewSineWave 4 1000000000 1 Format.signedInt16LE).length ∧
      (runReads (fun _ => ([0, 0] : List Nat)) (NewSineWave 4 1000000000 1
          Format.signedInt16LE) [[0, 0, 0], [0, 0, 0, 0, 0]]).2.remaining = [] →
      runOut (fun _ => ([0, 0] : List Nat)) (NewSineWave 4 1000000000 1
          Format.signedInt16LE) [[0, 0, 0], [0, 0, 0, 0, 0]] =
        (Read (fun _ => ([0, 0] : List Nat)) (NewSineWave 4 1000000000 1
          Format.signedInt16LE) (List.replicate 8 0)).1) :=
  c1_chunking_invariance (fun _ => ([0, 0] : List Nat)) 4 1000000000 1
    Format.signedInt16LE [[0, 0, 0], [0, 0, 0, 0, 0]] (List.replicate 8 0)
    (fun _ => rfl) (by decide) (by decide) (by decide)

end Keys
